import Mathlib

/-!
Verification development for the parallel prefix sum program
(src/src/parallel-prefix-sum.c and the near-duplicate variant in
src/unnamed/part_001).

The C program computes an in-place prefix sum of an integer array of
length NITEMS using NTHREADS pthreads in a three-phase protocol:
Phase 1 each thread computes the local prefix sum of its chunk,
Phase 2 thread 0 propagates the final chunk elements across chunk
boundaries, Phase 3 every thread except thread 0 adds its predecessor
chunk boundary value to its own chunk interior.  The two barriers in
threadfunction strictly sequence the three phases, and within each phase
all writes of distinct workers touch pairwise disjoint cells (and Phase 3
reads only cells no Phase 3 worker writes), so the final array contents
are independent of the interleaving; the functional model below applies
the workers of each phase in worker order, which is one (and hence, up
to the proved results, every) linearisation.

Arrays are modelled as List Int; array indexing data[i] is modelled by
getE, where out-of-range reads return 0 (no verified claim exercises an
out-of-range access).  The compile-time constants NITEMS and NTHREADS
become explicit parameters n and w; CELLS_PER_THREAD = n / w and
REMAINDER_OF_DIV = n % w are inlined at their use sites.
-/

/-- Array cell read, data[i]; out of range gives 0. -/
def getE (l : List Int) (i : Nat) : Int := l.getD i 0

/-- Sum of the array segment data[a], data[a+1], ..., data[a+k-1]. -/
def segSum (l : List Int) : Nat → Nat → Int
  | _, 0 => 0
  | a, k+1 => getE l a + segSum l (a+1) k

/-- The in-place scan loop shared by sequentialprefixsum and
threadprefixsum: c iterations of data[i] = data[i] + data[i-1],
with i counting up from the given start value. -/
def scanLoop : List Int → Nat → Nat → List Int
  | data, _, 0 => data
  | data, i, c+1 => scanLoop (data.set i (getE data i + getE data (i-1))) (i+1) c

/-- C function sequentialprefixsum: for (i=1; i<n; i++) data[i] += data[i-1],
with n the length of the array. -/
def sequentialprefixsum (data : List Int) : List Int :=
  scanLoop data 1 (data.length - 1)

/-- C function threadprefixsum: for (i = start_index+1; i < end_index+1; i++)
data[i] += data[i-1].  end_index is the inclusive last index of the chunk. -/
def threadprefixsum (data : List Int) (start_index end_index : Nat) : List Int :=
  scanLoop data (start_index + 1) (end_index - start_index)

/-- The loop of finalelementprefix: c iterations starting at loop index i;
iteration i computes curr = (i+1)*cpt - 1 and next = curr + cpt
(plus rem when i = w-2) and performs data[next] += data[curr]. -/
def fepLoop (cpt rem w : Nat) : List Int → Nat → Nat → List Int
  | data, _, 0 => data
  | data, i, c+1 =>
    let curr_final_index := (i+1) * cpt - 1
    let next_final_index :=
      if i = w - 2 then curr_final_index + cpt + rem else curr_final_index + cpt
    fepLoop cpt rem w
      (data.set next_final_index (getE data next_final_index + getE data curr_final_index))
      (i+1) c

/-- C function finalelementprefix: for (i = 0; i < NTHREADS-1; i++) add the
final element of chunk i into the final element of chunk i+1, the last
chunk being larger by REMAINDER_OF_DIV. -/
def finalelementprefix (n w : Nat) (data : List Int) : List Int :=
  fepLoop (n / w) (n % w) w data 0 (w - 1)

/-- The loop of updatelocalvalues: c iterations of data[i] += prev_final_val,
with i counting up from the given start value. -/
def ulvLoop (prev_final_val : Int) : List Int → Nat → Nat → List Int
  | data, _, 0 => data
  | data, i, c+1 => ulvLoop prev_final_val (data.set i (getE data i + prev_final_val)) (i+1) c

/-- C function updatelocalvalues: prev_final_val = data[start_index-1];
for (i = start_index; i < end_index; i++) data[i] += prev_final_val.
end_index, the inclusive last index of the chunk, is excluded. -/
def updatelocalvalues (data : List Int) (start_index end_index : Nat) : List Int :=
  ulvLoop (getE data (start_index - 1)) data start_index (end_index - start_index)

/-- Chunk start for worker i, as assigned in parallelprefixsum:
threadargs[i].start_index = i * CELLS_PER_THREAD. -/
def start_index (n w i : Nat) : Nat := i * (n / w)

/-- Chunk end (inclusive) for worker i, as assigned in parallelprefixsum:
threadargs[i].end_index = (i+1) * CELLS_PER_THREAD - 1, plus
REMAINDER_OF_DIV for the last worker. -/
def end_index (n w i : Nat) : Nat :=
  if i = w - 1 then (i+1) * (n / w) - 1 + n % w else (i+1) * (n / w) - 1

/-- Phase 1 of threadfunction for one worker: the local chunk scan. -/
def threadfunction_phase1 (n w id : Nat) (data : List Int) : List Int :=
  threadprefixsum data (start_index n w id) (end_index n w id)

/-- Phase 2 of threadfunction for one worker: only worker 0 runs
finalelementprefix; every other worker leaves the array untouched. -/
def threadfunction_phase2 (n w id : Nat) (data : List Int) : List Int :=
  if id = 0 then finalelementprefix n w data else data

/-- Phase 3 of threadfunction for one worker: every worker except worker 0
runs updatelocalvalues on its own chunk. -/
def threadfunction_phase3 (n w id : Nat) (data : List Int) : List Int :=
  if id ≠ 0 then updatelocalvalues data (start_index n w id) (end_index n w id) else data

/-- All workers' Phase 1, applied in worker order (the writes of distinct
workers are disjoint, so this is every interleaving's outcome). -/
def phase1 (n w : Nat) (data : List Int) : List Int :=
  (List.range w).foldl (fun d i => threadfunction_phase1 n w i d) data

/-- All workers' Phase 2 (only worker 0 acts). -/
def phase2 (n w : Nat) (data : List Int) : List Int :=
  (List.range w).foldl (fun d i => threadfunction_phase2 n w i d) data

/-- All workers' Phase 3, applied in worker order (the writes of distinct
workers are disjoint and no written cell is read, so this is every
interleaving's outcome). -/
def phase3 (n w : Nat) (data : List Int) : List Int :=
  (List.range w).foldl (fun d i => threadfunction_phase3 n w i d) data

/-- C function parallelprefixsum: launches w threads running threadfunction
on the chunks assigned by the argument-assignment loop; the two barriers in
threadfunction sequence the three phases globally. -/
def parallelprefixsum (w : Nat) (data : List Int) : List Int :=
  phase3 data.length w (phase2 data.length w (phase1 data.length w data))

/-- The loop of checkresult over indices i = first, first+1, ... with c
iterations left: returns 0 on the first mismatch, else 1. -/
def crLoop (correctresult data : List Int) : Nat → Nat → Nat
  | _, 0 => 1
  | i, c+1 => if getE data i ≠ getE correctresult i then 0 else crLoop correctresult data (i+1) c

/-- C function checkresult: for (i=0; i<n; i++) if (data[i] != correctresult[i])
return 0; return 1. -/
def checkresult (correctresult data : List Int) (n : Nat) : Nat :=
  crLoop correctresult data 0 n

/-- The configuration check at the top of main:
if ((NITEMS>10000000) || (NTHREADS>32)) exit(EXIT_FAILURE);
true means the program exits with failure before any allocation
or thread launch. -/
def config_rejected (nitems nthreads : Nat) : Bool :=
  decide (10000000 < nitems) || decide (32 < nthreads)

/-! Basic facts about getE, List.set and segSum. -/

lemma getE_nil (i : Nat) : getE [] i = 0 := rfl

lemma getE_cons_zero (a : Int) (l : List Int) : getE (a :: l) 0 = a := rfl

lemma getE_cons_succ (a : Int) (l : List Int) (i : Nat) :
    getE (a :: l) (i+1) = getE l i := rfl

lemma getE_set_self (l : List Int) (i : Nat) (x : Int) (h : i < l.length) :
    getE (l.set i x) i = x := by
  induction l generalizing i with
  | nil => simp at h
  | cons a t ih =>
    cases i with
    | zero => rfl
    | succ j =>
      have hj : j < t.length := by simpa using h
      simpa [List.set, getE_cons_succ] using ih j hj

lemma getE_set_ne (l : List Int) (i j : Nat) (x : Int) (h : i ≠ j) :
    getE (l.set i x) j = getE l j := by
  induction l generalizing i j with
  | nil => rfl
  | cons a t ih =>
    cases i with
    | zero =>
      cases j with
      | zero => exact absurd rfl h
      | succ j2 => rfl
    | succ i2 =>
      cases j with
      | zero => rfl
      | succ j2 =>
        have h2 : i2 ≠ j2 := fun he => h (by rw [he])
        simpa [List.set, getE_cons_succ] using ih i2 j2 h2

lemma ext_of_getE (l1 l2 : List Int) (hlen : l1.length = l2.length)
    (h : ∀ j, j < l1.length → getE l1 j = getE l2 j) : l1 = l2 := by
  induction l1 generalizing l2 with
  | nil =>
    cases l2 with
    | nil => rfl
    | cons b t => simp at hlen
  | cons a t ih =>
    cases l2 with
    | nil => simp at hlen
    | cons b t2 =>
      have ha : a = b := h 0 (by simp)
      have ht : t = t2 := by
        refine ih t2 (by simpa using hlen) ?_
        intro j hj
        have := h (j+1) (by simpa using Nat.succ_lt_succ hj)
        simpa [getE_cons_succ] using this
      rw [ha, ht]

lemma segSum_zero (l : List Int) (a : Nat) : segSum l a 0 = 0 := rfl

lemma segSum_one (l : List Int) (a : Nat) : segSum l a 1 = getE l a := by
  simp [segSum]

lemma segSum_succ_back (l : List Int) (a k : Nat) :
    segSum l a (k+1) = segSum l a k + getE l (a+k) := by
  induction k generalizing a with
  | zero => simp [segSum]
  | succ m ih =>
    have h1 : segSum l a (m+1+1) = getE l a + segSum l (a+1) (m+1) := rfl
    have h2 : segSum l a (m+1) = getE l a + segSum l (a+1) m := rfl
    have h3 : a + 1 + m = a + (m+1) := by omega
    rw [h1, ih (a+1), h2, h3]
    ring

lemma segSum_append (l : List Int) (a k1 k2 : Nat) :
    segSum l a (k1 + k2) = segSum l a k1 + segSum l (a + k1) k2 := by
  induction k2 with
  | zero => simp [segSum]
  | succ m ih =>
    have h1 : k1 + (m+1) = (k1 + m) + 1 := rfl
    rw [h1, segSum_succ_back, ih, segSum_succ_back, Nat.add_assoc]
    ring

lemma segSum_congr (l1 l2 : List Int) (a k : Nat)
    (h : ∀ t, a ≤ t → t < a + k → getE l1 t = getE l2 t) :
    segSum l1 a k = segSum l2 a k := by
  induction k generalizing a with
  | zero => rfl
  | succ m ih =>
    have hh : getE l1 a = getE l2 a := h a (Nat.le_refl a) (by omega)
    have ht : segSum l1 (a+1) m = segSum l2 (a+1) m := by
      refine ih (a+1) ?_
      intro t h1 h2
      exact h t (by omega) (by omega)
    show getE l1 a + segSum l1 (a+1) m = getE l2 a + segSum l2 (a+1) m
    rw [hh, ht]

/-! Facts about the scan loop. -/

lemma scanLoop_length (c : Nat) : ∀ (data : List Int) (i : Nat),
    (scanLoop data i c).length = data.length := by
  induction c with
  | zero => intro data i; rfl
  | succ m ih =>
    intro data i
    show (scanLoop (data.set i (getE data i + getE data (i-1))) (i+1) m).length = data.length
    rw [ih]
    exact List.length_set data _ _

lemma scanLoop_frame (c : Nat) : ∀ (data : List Int) (i j : Nat),
    (j < i ∨ i + c ≤ j) → getE (scanLoop data i c) j = getE data j := by
  induction c with
  | zero => intro data i j _; rfl
  | succ m ih =>
    intro data i j hj
    show getE (scanLoop (data.set i (getE data i + getE data (i-1))) (i+1) m) j = getE data j
    have hij : i ≠ j := by omega
    rw [ih _ (i+1) j (by omega), getE_set_ne data i j _ hij]

lemma scanLoop_spec (c : Nat) : ∀ (i a : Nat) (data orig : List Int),
    data.length = orig.length → a < i → i + c ≤ orig.length →
    (∀ t, i ≤ t → getE data t = getE orig t) →
    getE data (i-1) = segSum orig a (i - a) →
    ∀ j, i - 1 ≤ j → j < i + c →
      getE (scanLoop data i c) j = segSum orig a (j + 1 - a) := by
  induction c with
  | zero =>
    intro i a data orig _ hai _ _ hlast j hj1 hj2
    have hji : j = i - 1 := by omega
    subst hji
    have : i - 1 + 1 - a = i - a := by omega
    rw [this]
    exact hlast
  | succ m ih =>
    intro i a data orig hlen hai hbound heq hlast j hj1 hj2
    have hilen : i < data.length := by omega
    have hnewval : getE (data.set i (getE data i + getE data (i-1))) i
        = segSum orig a (i + 1 - a) := by
      rw [getE_set_self data i _ hilen, heq i (Nat.le_refl i), hlast]
      have h1 : i + 1 - a = (i - a) + 1 := by omega
      have h2 : a + (i - a) = i := by omega
      rw [h1, segSum_succ_back, h2]
      ring
    show getE (scanLoop (data.set i (getE data i + getE data (i-1))) (i+1) m) j
        = segSum orig a (j + 1 - a)
    rcases Nat.lt_or_ge j i with hlt | hge
    · -- j = i - 1, untouched by the remaining iterations
      have hji : j = i - 1 := by omega
      have hframe := scanLoop_frame m (data.set i (getE data i + getE data (i-1))) (i+1) j
        (Or.inl (by omega))
      rw [hframe, getE_set_ne data i j _ (by omega), hji, hlast]
      have : i - 1 + 1 - a = i - a := by omega
      rw [this]
    · -- j ≥ i, covered by the induction hypothesis at i+1
      refine ih (i+1) a (data.set i (getE data i + getE data (i-1))) orig ?_ (by omega)
        (by omega) ?_ ?_ j (by omega) (by omega)
      · rw [List.length_set]; exact hlen
      · intro t ht
        rw [getE_set_ne data i t _ (by omega)]
        exact heq t (by omega)
      · have : i + 1 - 1 = i := by omega
        rw [this, hnewval]

lemma threadprefixsum_length (data : List Int) (s e : Nat) :
    (threadprefixsum data s e).length = data.length :=
  scanLoop_length _ data _

lemma threadprefixsum_frame (data : List Int) (s e j : Nat) (hj : j ≤ s ∨ e < j) :
    getE (threadprefixsum data s e) j = getE data j := by
  exact scanLoop_frame _ data (s+1) j (by omega)

lemma threadprefixsum_getE (data : List Int) (s e : Nat)
    (he : e < data.length) :
    ∀ j, s ≤ j → j ≤ e → getE (threadprefixsum data s e) j = segSum data s (j + 1 - s) := by
  intro j hj1 hj2
  refine scanLoop_spec (e - s) (s+1) s data data rfl (by omega) (by omega) ?_ ?_ j
    (by omega) (by omega)
  · intro t _; rfl
  · have h1 : s + 1 - 1 = s := by omega
    have h2 : s + 1 - s = 1 := by omega
    rw [h1, h2, segSum_one]

lemma sequentialprefixsum_length (data : List Int) :
    (sequentialprefixsum data).length = data.length :=
  scanLoop_length _ data _

lemma sequentialprefixsum_getE (data : List Int) :
    ∀ j, j < data.length → getE (sequentialprefixsum data) j = segSum data 0 (j + 1) := by
  intro j hj
  have h := scanLoop_spec (data.length - 1) 1 0 data data rfl (by omega) (by omega)
    (fun t _ => rfl) (by rw [segSum_one]) j (by omega) (by omega)
  simpa using h

/-! Chunk arithmetic for the partitioner of parallelprefixsum.
Throughout, n is NITEMS, w is NTHREADS, and the validated envelope is
1 ≤ w ≤ n; then CELLS_PER_THREAD = n / w is at least 1 and the chunk
bounds of the argument-assignment loop tile the index range. -/

lemma cpt_pos (n w : Nat) (hw : 1 ≤ w) (hwn : w ≤ n) : 1 ≤ n / w :=
  (Nat.one_le_div_iff hw).mpr hwn

lemma start_index_zero (n w : Nat) : start_index n w 0 = 0 := by
  simp [start_index]

lemma start_index_succ (n w i : Nat) :
    start_index n w (i+1) = start_index n w i + n / w := by
  simp [start_index, Nat.succ_mul]

lemma start_index_mono (n w i j : Nat) (h : i ≤ j) :
    start_index n w i ≤ start_index n w j :=
  Nat.mul_le_mul_right _ h

lemma end_index_eq_of_lt (n w i : Nat) (hi : i + 1 < w) :
    end_index n w i = (i+1) * (n / w) - 1 := by
  unfold end_index
  rw [if_neg (by omega)]

lemma end_index_last_eq (n w : Nat) (hw : 1 ≤ w) :
    end_index n w (w-1) = w * (n / w) - 1 + n % w := by
  unfold end_index
  rw [if_pos rfl]
  have h : w - 1 + 1 = w := by omega
  rw [h]

lemma end_index_last (n w : Nat) (hw : 1 ≤ w) (hwn : w ≤ n) :
    end_index n w (w-1) = n - 1 := by
  rw [end_index_last_eq n w hw]
  have h1 : 1 ≤ n / w := cpt_pos n w hw hwn
  have h2 : w * (n / w) + n % w = n := Nat.div_add_mod n w
  have h3 : n / w ≤ w * (n / w) := Nat.le_mul_of_pos_left _ (by omega)
  omega

lemma end_succ_eq_start (n w i : Nat) (hi : i + 1 < w) (hw : 1 ≤ w) (hwn : w ≤ n) :
    end_index n w i + 1 = start_index n w (i+1) := by
  rw [end_index_eq_of_lt n w i hi]
  have h1 : 1 ≤ n / w := cpt_pos n w hw hwn
  have h2 : n / w ≤ (i+1) * (n / w) := Nat.le_mul_of_pos_left _ (by omega)
  unfold start_index
  omega

lemma start_le_end (n w i : Nat) (hi : i < w) (hw : 1 ≤ w) (hwn : w ≤ n) :
    start_index n w i ≤ end_index n w i := by
  have h1 : 1 ≤ n / w := cpt_pos n w hw hwn
  rcases Nat.lt_or_ge (i+1) w with h | h
  · rw [end_index_eq_of_lt n w i h]
    unfold start_index
    have h2 : (i+1) * (n / w) = i * (n / w) + n / w := Nat.succ_mul _ _
    omega
  · have hi2 : i = w - 1 := by omega
    subst hi2
    rw [end_index_last_eq n w hw]
    unfold start_index
    have h2 : w * (n / w) = (w-1) * (n / w) + n / w := by
      have h3 : w - 1 + 1 = w := by omega
      calc w * (n / w) = (w - 1 + 1) * (n / w) := by rw [h3]
        _ = (w-1) * (n / w) + n / w := Nat.succ_mul _ _
    omega

lemma end_index_lt (n w i : Nat) (hi : i < w) (hw : 1 ≤ w) (hwn : w ≤ n) :
    end_index n w i < n := by
  have h1 : 1 ≤ n / w := cpt_pos n w hw hwn
  rcases Nat.lt_or_ge (i+1) w with h | h
  · rw [end_index_eq_of_lt n w i h]
    have h2 : (i+1) * (n / w) ≤ w * (n / w) := Nat.mul_le_mul_right _ (by omega)
    have h3 : w * (n / w) + n % w = n := Nat.div_add_mod n w
    omega
  · have hi2 : i = w - 1 := by omega
    subst hi2
    rw [end_index_last n w hw hwn]
    omega

lemma end_lt_start (n w i j : Nat) (hij : i < j) (hj : j < w) (hw : 1 ≤ w) (hwn : w ≤ n) :
    end_index n w i < start_index n w j := by
  have h1 : end_index n w i + 1 = start_index n w (i+1) :=
    end_succ_eq_start n w i (by omega) hw hwn
  have h2 : start_index n w (i+1) ≤ start_index n w j := start_index_mono n w _ _ (by omega)
  omega

lemma end_index_strict_mono (n w i j : Nat) (hij : i < j) (hj : j < w)
    (hw : 1 ≤ w) (hwn : w ≤ n) : end_index n w i < end_index n w j := by
  have h1 := end_lt_start n w i j hij hj hw hwn
  have h2 := start_le_end n w j hj hw hwn
  omega

lemma chunk_cover (n w j : Nat) (hw : 1 ≤ w) (hwn : w ≤ n) (hj : j < n) :
    ∃ i, i < w ∧ start_index n w i ≤ j ∧ j ≤ end_index n w i := by
  have h1 : 1 ≤ n / w := cpt_pos n w hw hwn
  rcases Nat.lt_or_ge (j / (n / w)) (w - 1) with h | h
  · refine ⟨j / (n / w), by omega, Nat.div_mul_le_self j (n / w), ?_⟩
    rw [end_index_eq_of_lt n w _ (by omega)]
    have h2 := Nat.div_add_mod j (n / w)
    have h3 := Nat.mod_lt j (show 0 < n / w by omega)
    have h4 : (j / (n / w) + 1) * (n / w) = j / (n / w) * (n / w) + n / w :=
      Nat.succ_mul _ _
    have h5 : n / w * (j / (n / w)) = j / (n / w) * (n / w) := Nat.mul_comm _ _
    omega
  · refine ⟨w - 1, by omega, ?_, ?_⟩
    · have h2 : (w - 1) * (n / w) ≤ j / (n / w) * (n / w) := Nat.mul_le_mul_right _ h
      have h3 : j / (n / w) * (n / w) ≤ j := Nat.div_mul_le_self j (n / w)
      unfold start_index
      omega
    · rw [end_index_last n w hw hwn]
      omega

lemma chunk_size_of_lt (n w i : Nat) (hi : i + 1 < w) (hw : 1 ≤ w) (hwn : w ≤ n) :
    end_index n w i + 1 - start_index n w i = n / w := by
  have h0 : 1 ≤ n / w := cpt_pos n w hw hwn
  have h1 := end_succ_eq_start n w i hi hw hwn
  have h2 := start_index_succ n w i
  omega

lemma chunk_size_last (n w : Nat) (hw : 1 ≤ w) (hwn : w ≤ n) :
    end_index n w (w-1) + 1 - start_index n w (w-1) = n / w + n % w := by
  have h1 : 1 ≤ n / w := cpt_pos n w hw hwn
  rw [end_index_last_eq n w hw]
  unfold start_index
  have h2 : w * (n / w) = (w-1) * (n / w) + n / w := by
    have h3 : w - 1 + 1 = w := by omega
    calc w * (n / w) = (w - 1 + 1) * (n / w) := by rw [h3]
      _ = (w-1) * (n / w) + n / w := Nat.succ_mul _ _
  have h4 : n / w ≤ w * (n / w) := Nat.le_mul_of_pos_left _ (by omega)
  omega

/-! Phase 1: after all workers' local scans, every chunk holds its local
prefix sums. -/

/-- The Phase 1 fold restricted to the first m workers (proof scaffolding:
phase1 is phase1upto at m = w). -/
def phase1upto (n w m : Nat) (data : List Int) : List Int :=
  (List.range m).foldl (fun d i => threadfunction_phase1 n w i d) data

lemma phase1_eq_upto (n w : Nat) (data : List Int) :
    phase1 n w data = phase1upto n w w data := rfl

lemma phase1upto_succ (n w m : Nat) (data : List Int) :
    phase1upto n w (m+1) data = threadfunction_phase1 n w m (phase1upto n w m data) := by
  unfold phase1upto
  rw [List.range_succ, List.foldl_append]
  rfl

lemma phase1upto_spec (n w : Nat) (orig : List Int) (hw : 1 ≤ w) (hwn : w ≤ n)
    (hlen : orig.length = n) :
    ∀ m, m ≤ w →
      (phase1upto n w m orig).length = n ∧
      (∀ i, i < m → ∀ j, start_index n w i ≤ j → j ≤ end_index n w i →
        getE (phase1upto n w m orig) j
          = segSum orig (start_index n w i) (j + 1 - start_index n w i)) ∧
      (m < w → ∀ j, start_index n w m ≤ j → getE (phase1upto n w m orig) j = getE orig j) := by
  intro m
  induction m with
  | zero =>
    intro _
    refine ⟨hlen, ?_, ?_⟩
    · intro i hi; omega
    · intro _ j _; rfl
  | succ m ih =>
    intro hm1
    obtain ⟨ihlen, ihchunks, ihrest⟩ := ih (by omega)
    have hmw : m < w := by omega
    have hrest := ihrest hmw
    have hsm : start_index n w m ≤ end_index n w m := start_le_end n w m hmw hw hwn
    have hem : end_index n w m < n := end_index_lt n w m hmw hw hwn
    rw [phase1upto_succ]
    unfold threadfunction_phase1
    refine ⟨?_, ?_, ?_⟩
    · rw [threadprefixsum_length, ihlen]
    · intro i hi j hj1 hj2
      rcases Nat.lt_or_ge i m with him | him
      · -- chunk i was finished earlier and lies strictly before cell s_m
        have hjlt : j < start_index n w m := by
          have := end_lt_start n w i m him hmw hw hwn
          omega
        rw [threadprefixsum_frame _ _ _ j (Or.inl (by omega))]
        exact ihchunks i him j hj1 hj2
      · -- i = m: the worker just processed
        have hieq : m = i := by omega
        subst hieq
        rw [threadprefixsum_getE (phase1upto n w m orig) _ _ (by omega) j hj1 hj2]
        refine segSum_congr _ _ _ _ ?_
        intro t ht1 _
        exact hrest t ht1
    · intro hm2 j hj
      have hjgt : end_index n w m < j := by
        have := end_succ_eq_start n w m (by omega) hw hwn
        omega
      rw [threadprefixsum_frame _ _ _ j (Or.inr hjgt)]
      exact hrest j (by omega)

lemma phase1_length (n w : Nat) (orig : List Int) (hw : 1 ≤ w) (hwn : w ≤ n)
    (hlen : orig.length = n) : (phase1 n w orig).length = n := by
  rw [phase1_eq_upto]
  exact (phase1upto_spec n w orig hw hwn hlen w (Nat.le_refl w)).1

lemma phase1_local (n w : Nat) (orig : List Int) (hw : 1 ≤ w) (hwn : w ≤ n)
    (hlen : orig.length = n) :
    ∀ i, i < w → ∀ j, start_index n w i ≤ j → j ≤ end_index n w i →
      getE (phase1 n w orig) j
        = segSum orig (start_index n w i) (j + 1 - start_index n w i) := by
  rw [phase1_eq_upto]
  exact (phase1upto_spec n w orig hw hwn hlen w (Nat.le_refl w)).2.1

/-! Phase 2: the coordinator propagates the chunk-final values; afterwards
every chunk's final element holds the global prefix sum up to it. -/

lemma fepLoop_succ (cpt rem w : Nat) (data : List Int) (i c : Nat) :
    fepLoop cpt rem w data i (c+1)
      = fepLoop cpt rem w
          (data.set (if i = w - 2 then (i+1)*cpt - 1 + cpt + rem else (i+1)*cpt - 1 + cpt)
            (getE data (if i = w - 2 then (i+1)*cpt - 1 + cpt + rem else (i+1)*cpt - 1 + cpt)
              + getE data ((i+1)*cpt - 1)))
          (i+1) c := rfl

lemma fep_next_eq (n w i : Nat) (hi : i + 1 < w) (hw : 1 ≤ w) (hwn : w ≤ n) :
    (if i = w - 2 then (i+1)*(n/w) - 1 + (n/w) + (n%w) else (i+1)*(n/w) - 1 + (n/w))
      = end_index n w (i+1) := by
  have hcpt : 1 ≤ n / w := cpt_pos n w hw hwn
  have hprod : 1 ≤ (i+1) * (n / w) := by
    have := Nat.le_mul_of_pos_left (n / w) (show 0 < i + 1 by omega)
    omega
  have hsucc : (i+1+1) * (n / w) = (i+1) * (n / w) + n / w := Nat.succ_mul _ _
  rcases Nat.decEq i (w - 2) with h | h
  · -- interior boundary
    rw [if_neg h]
    have hi2 : i + 1 + 1 < w := by omega
    rw [end_index_eq_of_lt n w (i+1) hi2]
    omega
  · -- boundary into the last, larger chunk
    rw [if_pos h]
    have hlast : i + 1 = w - 1 := by omega
    rw [hlast, end_index_last_eq n w hw]
    have hw1 : 1 ≤ w - 1 := by omega
    have hsucc2 : w * (n / w) = (w-1) * (n / w) + n / w := by
      have h3 : w - 1 + 1 = w := by omega
      calc w * (n / w) = (w - 1 + 1) * (n / w) := by rw [h3]
        _ = (w-1) * (n / w) + n / w := Nat.succ_mul _ _
    have hprod2 : n / w ≤ (w-1) * (n / w) := Nat.le_mul_of_pos_left _ (by omega)
    omega

lemma fepLoop_go (n w : Nat) (orig : List Int) (hw : 1 ≤ w) (hwn : w ≤ n) :
    ∀ (c : Nat), ∀ (i : Nat) (d : List Int), i + c = w - 1 →
      d.length = n →
      getE d (end_index n w i) = segSum orig 0 (end_index n w i + 1) →
      (∀ k, i < k → k < w → getE d (end_index n w k)
        = segSum orig (start_index n w k) (end_index n w k + 1 - start_index n w k)) →
      (∀ j, (∀ k, i < k → k < w → j ≠ end_index n w k) →
          getE (fepLoop (n/w) (n%w) w d i c) j = getE d j) ∧
      (∀ k, i ≤ k → k < w → getE (fepLoop (n/w) (n%w) w d i c) (end_index n w k)
        = segSum orig 0 (end_index n w k + 1)) ∧
      (fepLoop (n/w) (n%w) w d i c).length = n := by
  intro c
  induction c with
  | zero =>
    intro i d hic hdlen hd0 _
    refine ⟨fun j _ => rfl, ?_, hdlen⟩
    intro k hk1 hk2
    have hk : k = i := by omega
    subst hk
    exact hd0
  | succ c ih =>
    intro i d hic hdlen hd0 hdloc
    have hi1 : i + 1 < w := by omega
    have hElt : end_index n w i < end_index n w (i+1) :=
      end_index_strict_mono n w i (i+1) (by omega) hi1 hw hwn
    have hEn : end_index n w (i+1) < n := end_index_lt n w (i+1) hi1 hw hwn
    have hstart : end_index n w i + 1 = start_index n w (i+1) :=
      end_succ_eq_start n w i hi1 hw hwn
    rw [fepLoop_succ, fep_next_eq n w i hi1 hw hwn,
      show (i+1)*(n/w) - 1 = end_index n w i from (end_index_eq_of_lt n w i hi1).symm]
    have hloc1 : getE d (end_index n w (i+1))
        = segSum orig (end_index n w i + 1) (end_index n w (i+1) - end_index n w i) := by
      have h := hdloc (i+1) (by omega) hi1
      rw [← hstart] at h
      have h3 : end_index n w (i+1) + 1 - (end_index n w i + 1)
          = end_index n w (i+1) - end_index n w i := by omega
      rw [h3] at h
      exact h
    have hval : getE d (end_index n w (i+1)) + getE d (end_index n w i)
        = segSum orig 0 (end_index n w (i+1) + 1) := by
      rw [hloc1, hd0]
      have happ := segSum_append orig 0 (end_index n w i + 1)
        (end_index n w (i+1) - end_index n w i)
      have h3 : end_index n w i + 1 + (end_index n w (i+1) - end_index n w i)
          = end_index n w (i+1) + 1 := by omega
      have h4 : 0 + (end_index n w i + 1) = end_index n w i + 1 := by omega
      rw [h3, h4] at happ
      rw [happ]
      ring
    have hd2len : (d.set (end_index n w (i+1))
        (getE d (end_index n w (i+1)) + getE d (end_index n w i))).length = n := by
      rw [List.length_set]; exact hdlen
    have hd2new : getE (d.set (end_index n w (i+1))
        (getE d (end_index n w (i+1)) + getE d (end_index n w i))) (end_index n w (i+1))
        = segSum orig 0 (end_index n w (i+1) + 1) := by
      rw [getE_set_self d _ _ (by omega)]
      exact hval
    have hd2loc : ∀ k, i + 1 < k → k < w →
        getE (d.set (end_index n w (i+1))
          (getE d (end_index n w (i+1)) + getE d (end_index n w i))) (end_index n w k)
        = segSum orig (start_index n w k) (end_index n w k + 1 - start_index n w k) := by
      intro k hk1 hk2
      have hne : end_index n w (i+1) ≠ end_index n w k := by
        have := end_index_strict_mono n w (i+1) k hk1 hk2 hw hwn
        omega
      rw [getE_set_ne d _ _ _ hne]
      exact hdloc k (by omega) hk2
    obtain ⟨ihframe, ihspec, ihlen⟩ := ih (i+1)
      (d.set (end_index n w (i+1)) (getE d (end_index n w (i+1)) + getE d (end_index n w i)))
      (by omega) hd2len hd2new hd2loc
    refine ⟨?_, ?_, ihlen⟩
    · intro j hj
      have hj1 : j ≠ end_index n w (i+1) := hj (i+1) (by omega) hi1
      rw [ihframe j (fun k hk1 hk2 => hj k (by omega) hk2),
        getE_set_ne d _ j _ (fun he => hj1 he.symm)]
    · intro k hk1 hk2
      rcases Nat.lt_or_ge k (i+1) with hk | hk
      · -- k = i: its final element is already correct and never touched again
        have hki : k = i := by omega
        subst hki
        have hframe := ihframe (end_index n w k) (fun k2 hk21 hk22 => by
          have := end_index_strict_mono n w k k2 (by omega) hk22 hw hwn
          omega)
        rw [hframe, getE_set_ne d _ _ _ (by omega)]
        exact hd0
      · exact ihspec k hk hk2

lemma finalelementprefix_spec (n w : Nat) (orig d : List Int) (hw : 1 ≤ w) (hwn : w ≤ n)
    (hdlen : d.length = n)
    (hdloc : ∀ k, k < w → ∀ j, start_index n w k ≤ j → j ≤ end_index n w k →
      getE d j = segSum orig (start_index n w k) (j + 1 - start_index n w k)) :
    (∀ j, (∀ k, 1 ≤ k → k < w → j ≠ end_index n w k) →
        getE ( finalelementprefix n w d) j = getE d j) ∧
    (∀ k, k < w → getE ( finalelementprefix n w d) (end_index n w k)
      = segSum orig 0 (end_index n w k + 1)) ∧
    ( finalelementprefix n w d).length = n := by
  have hs0 : start_index n w 0 = 0 := start_index_zero n w
  have he0 : end_index n w 0 < n := end_index_lt n w 0 (by omega) hw hwn
  have hd0 : getE d (end_index n w 0) = segSum orig 0 (end_index n w 0 + 1) := by
    have h := hdloc 0 (by omega) (end_index n w 0) (by omega)
      (Nat.le_refl _)
    rw [hs0] at h
    simpa using h
  have hdl2 : ∀ k, 0 < k → k < w → getE d (end_index n w k)
      = segSum orig (start_index n w k) (end_index n w k + 1 - start_index n w k) := by
    intro k _ hk2
    exact hdloc k hk2 (end_index n w k) (start_le_end n w k hk2 hw hwn) (Nat.le_refl _)
  obtain ⟨hframe, hspec, hlen⟩ := fepLoop_go n w orig hw hwn (w-1) 0 d (by omega)
    hdlen hd0 hdl2
  exact ⟨fun j hj => hframe j (fun k hk1 hk2 => hj k hk1 hk2),
    fun k hk => hspec k (by omega) hk, hlen⟩

/-! Phase 3: each non-zero worker adds its predecessor carry to its chunk
interior. -/

lemma ulvLoop_length (c : Nat) : ∀ (prev : Int) (d : List Int) (i : Nat),
    (ulvLoop prev d i c).length = d.length := by
  induction c with
  | zero => intro prev d i; rfl
  | succ m ih =>
    intro prev d i
    show (ulvLoop prev (d.set i (getE d i + prev)) (i+1) m).length = d.length
    rw [ih]
    exact List.length_set d _ _

lemma ulvLoop_frame (c : Nat) : ∀ (prev : Int) (d : List Int) (i j : Nat),
    (j < i ∨ i + c ≤ j) → getE (ulvLoop prev d i c) j = getE d j := by
  induction c with
  | zero => intro prev d i j _; rfl
  | succ m ih =>
    intro prev d i j hj
    show getE (ulvLoop prev (d.set i (getE d i + prev)) (i+1) m) j = getE d j
    rw [ih prev _ (i+1) j (by omega), getE_set_ne d i j _ (by omega)]

lemma ulvLoop_spec (c : Nat) : ∀ (prev : Int) (d : List Int) (i : Nat),
    i + c ≤ d.length → ∀ j, i ≤ j → j < i + c →
      getE (ulvLoop prev d i c) j = getE d j + prev := by
  induction c with
  | zero => intro prev d i _ j _ _; omega
  | succ m ih =>
    intro prev d i hbound j hj1 hj2
    show getE (ulvLoop prev (d.set i (getE d i + prev)) (i+1) m) j = getE d j + prev
    rcases eq_or_ne j i with hji | hji
    · subst hji
      rw [ulvLoop_frame m prev _ (j+1) j (Or.inl (by omega)),
        getE_set_self d j _ (by omega)]
    · have hji2 : i + 1 ≤ j := by omega
      rw [ih prev _ (i+1) (by rw [List.length_set]; omega) j hji2 (by omega),
        getE_set_ne d i j _ (fun he => hji he.symm)]

lemma updatelocalvalues_length (d : List Int) (s e : Nat) :
    (updatelocalvalues d s e).length = d.length :=
  ulvLoop_length _ _ d s

lemma updatelocalvalues_frame (d : List Int) (s e j : Nat) (hj : j < s ∨ e ≤ j) :
    getE (updatelocalvalues d s e) j = getE d j :=
  ulvLoop_frame _ _ d s j (by omega)

lemma updatelocalvalues_spec (d : List Int) (s e : Nat) (he : e ≤ d.length) :
    ∀ j, s ≤ j → j < e →
      getE (updatelocalvalues d s e) j = getE d j + getE d (s - 1) := by
  intro j hj1 hj2
  exact ulvLoop_spec (e - s) _ d s (by omega) j hj1 (by omega)

/-! Reduction of the phase folds: Phase 2 is one run of finalelementprefix,
and Phase 3 folds restricted to the first m workers support induction. -/

lemma foldl_phase2_id (n w : Nat) : ∀ (k s : Nat), 1 ≤ s → ∀ (d : List Int),
    (List.range' s k).foldl (fun d i => threadfunction_phase2 n w i d) d = d := by
  intro k
  induction k with
  | zero => intro s _ d; rfl
  | succ m ih =>
    intro s hs d
    show (List.range' (s+1) m).foldl (fun d i => threadfunction_phase2 n w i d)
      (threadfunction_phase2 n w s d) = d
    have h2 : threadfunction_phase2 n w s d = d := by
      unfold threadfunction_phase2
      rw [if_neg (by omega)]
    rw [h2, ih (s+1) (by omega) d]

lemma phase2_eq (n w : Nat) (d : List Int) (hw : 1 ≤ w) :
    phase2 n w d = finalelementprefix n w d := by
  obtain ⟨k, rfl⟩ : ∃ k, w = k + 1 := ⟨w - 1, by omega⟩
  unfold phase2
  rw [List.range_eq_range']
  show (List.range' 1 k).foldl (fun d i => threadfunction_phase2 n (k+1) i d)
    (threadfunction_phase2 n (k+1) 0 d) = _
  rw [foldl_phase2_id n (k+1) k 1 (Nat.le_refl 1)]
  unfold threadfunction_phase2
  rw [if_pos rfl]

/-- The Phase 3 fold restricted to the first m workers (proof scaffolding:
phase3 is phase3upto at m = w). -/
def phase3upto (n w m : Nat) (data : List Int) : List Int :=
  (List.range m).foldl (fun d i => threadfunction_phase3 n w i d) data

lemma phase3_eq_upto (n w : Nat) (data : List Int) :
    phase3 n w data = phase3upto n w w data := rfl

lemma phase3upto_succ (n w m : Nat) (data : List Int) :
    phase3upto n w (m+1) data = threadfunction_phase3 n w m (phase3upto n w m data) := by
  unfold phase3upto
  rw [List.range_succ, List.foldl_append]
  rfl

lemma phase3upto_spec (n w : Nat) (orig d2 : List Int) (hw : 1 ≤ w) (hwn : w ≤ n)
    (hlen : d2.length = n)
    (hglob : ∀ k, k < w → getE d2 (end_index n w k) = segSum orig 0 (end_index n w k + 1))
    (hloc : ∀ k, k < w → ∀ j, start_index n w k ≤ j → j < end_index n w k →
      getE d2 j = segSum orig (start_index n w k) (j + 1 - start_index n w k)) :
    ∀ m, 1 ≤ m → m ≤ w →
      (phase3upto n w m d2).length = n ∧
      (∀ j, j ≤ end_index n w (m-1) → getE (phase3upto n w m d2) j = segSum orig 0 (j+1)) ∧
      (∀ j, end_index n w (m-1) < j → getE (phase3upto n w m d2) j = getE d2 j) := by
  intro m
  induction m with
  | zero => intro h1 _; omega
  | succ m ih =>
    intro _ hm1
    rcases eq_or_ne m 0 with hm0 | hm0
    · -- the first worker: worker 0 does nothing in Phase 3
      subst hm0
      simp only [Nat.add_sub_cancel]
      have hstep : phase3upto n w 1 d2 = d2 := by
        rw [phase3upto_succ]
        show threadfunction_phase3 n w 0 (phase3upto n w 0 d2) = d2
        unfold threadfunction_phase3
        rw [if_neg (by omega)]
        rfl
      rw [hstep]
      refine ⟨hlen, ?_, fun j _ => rfl⟩
      intro j hj
      rcases Nat.lt_or_ge j (end_index n w 0) with hj2 | hj2
      · have h := hloc 0 (by omega) j (by rw [start_index_zero]; omega) hj2
        rw [start_index_zero] at h
        simpa using h
      · have hje : j = end_index n w 0 := by omega
        subst hje
        exact hglob 0 (by omega)
    · -- worker m ≥ 1 applies its carry
      have hm2 : 1 ≤ m := by omega
      have hmw : m < w := by omega
      obtain ⟨ihlen, ihdone, ihrest⟩ := ih hm2 (by omega)
      have hprev : end_index n w (m-1) + 1 = start_index n w m := by
        have h := end_succ_eq_start n w (m-1) (by omega) hw hwn
        have h2 : m - 1 + 1 = m := by omega
        rw [h2] at h
        exact h
      have hse : start_index n w m ≤ end_index n w m := start_le_end n w m hmw hw hwn
      have hem : end_index n w m < n := end_index_lt n w m hmw hw hwn
      have hmono : end_index n w (m-1) < end_index n w m :=
        end_index_strict_mono n w (m-1) m (by omega) hmw hw hwn
      have hstep : phase3upto n w (m+1) d2
          = updatelocalvalues (phase3upto n w m d2) (start_index n w m) (end_index n w m) := by
        rw [phase3upto_succ]
        unfold threadfunction_phase3
        rw [if_pos (by omega)]
      have hprevval : getE (phase3upto n w m d2) (start_index n w m - 1)
          = segSum orig 0 (start_index n w m) := by
        have h1 : start_index n w m - 1 = end_index n w (m-1) := by omega
        rw [h1, ihdone (end_index n w (m-1)) (Nat.le_refl _), hprev]
      have hm1e : m + 1 - 1 = m := by omega
      rw [hstep, hm1e]
      refine ⟨?_, ?_, ?_⟩
      · rw [updatelocalvalues_length, ihlen]
      · intro j hj
        rcases Nat.lt_or_ge j (start_index n w m) with hj2 | hj2
        · -- cells of earlier chunks are already final
          rw [updatelocalvalues_frame _ _ _ j (Or.inl hj2)]
          exact ihdone j (by omega)
        · rcases Nat.lt_or_ge j (end_index n w m) with hj3 | hj3
          · -- interior cell of chunk m: local sum plus carry
            rw [updatelocalvalues_spec _ _ _ (by omega) j hj2 hj3, hprevval,
              ihrest j (by omega), hloc m hmw j hj2 hj3]
            have happ := segSum_append orig 0 (start_index n w m)
              (j + 1 - start_index n w m)
            have h3 : start_index n w m + (j + 1 - start_index n w m) = j + 1 := by omega
            have h4 : 0 + start_index n w m = start_index n w m := by omega
            rw [h3, h4] at happ
            rw [happ]
            ring
          · -- final cell of chunk m: already final from Phase 2
            have hje : j = end_index n w m := by omega
            subst hje
            rw [updatelocalvalues_frame _ _ _ _ (Or.inr (Nat.le_refl _)),
              ihrest _ (by omega)]
            exact hglob m hmw
      · intro j hj
        rw [updatelocalvalues_frame _ _ _ j (Or.inr (by omega))]
        exact ihrest j (by omega)

/-! End-to-end correctness: the three phases compose to the sequential
prefix sum. -/

lemma phase12_len (n w : Nat) (orig : List Int) (hw : 1 ≤ w) (hwn : w ≤ n)
    (hlen : orig.length = n) :
    ( finalelementprefix n w (phase1 n w orig)).length = n :=
  (finalelementprefix_spec n w orig (phase1 n w orig) hw hwn
    (phase1_length n w orig hw hwn hlen) (phase1_local n w orig hw hwn hlen)).2.2

lemma phase12_glob (n w : Nat) (orig : List Int) (hw : 1 ≤ w) (hwn : w ≤ n)
    (hlen : orig.length = n) :
    ∀ k, k < w → getE ( finalelementprefix n w (phase1 n w orig)) (end_index n w k)
      = segSum orig 0 (end_index n w k + 1) :=
  (finalelementprefix_spec n w orig (phase1 n w orig) hw hwn
    (phase1_length n w orig hw hwn hlen) (phase1_local n w orig hw hwn hlen)).2.1

lemma phase12_loc (n w : Nat) (orig : List Int) (hw : 1 ≤ w) (hwn : w ≤ n)
    (hlen : orig.length = n) :
    ∀ k, k < w → ∀ j, start_index n w k ≤ j → j < end_index n w k →
      getE ( finalelementprefix n w (phase1 n w orig)) j
        = segSum orig (start_index n w k) (j + 1 - start_index n w k) := by
  intro k hk j hj1 hj2
  have hframe := (finalelementprefix_spec n w orig (phase1 n w orig) hw hwn
    (phase1_length n w orig hw hwn hlen) (phase1_local n w orig hw hwn hlen)).1
  rw [hframe j ?_]
  · exact phase1_local n w orig hw hwn hlen k hk j hj1 (by omega)
  · intro k2 hk21 hk22
    rcases Nat.lt_or_ge k2 k with hkk | hkk
    · have := end_lt_start n w k2 k hkk hk hw hwn
      omega
    · rcases eq_or_ne k2 k with hkk2 | hkk2
      · subst hkk2; omega
      · have := end_index_strict_mono n w k k2 (by omega) hk22 hw hwn
        omega

lemma pps_eq_seq (w : Nat) (data : List Int) (hw : 1 ≤ w) (hwn : w ≤ data.length) :
    parallelprefixsum w data = sequentialprefixsum data := by
  have hn1 : 1 ≤ data.length := le_trans hw hwn
  unfold parallelprefixsum
  rw [phase2_eq data.length w _ hw, phase3_eq_upto]
  obtain ⟨hlen3, hdone3, _⟩ := phase3upto_spec data.length w data
    ( finalelementprefix data.length w (phase1 data.length w data)) hw hwn
    (phase12_len data.length w data hw hwn rfl)
    (phase12_glob data.length w data hw hwn rfl)
    (phase12_loc data.length w data hw hwn rfl)
    w hw (Nat.le_refl w)
  have hlast : end_index data.length w (w-1) = data.length - 1 :=
    end_index_last data.length w hw hwn
  refine ext_of_getE _ _ ?_ ?_
  · rw [hlen3, sequentialprefixsum_length]
  · intro j hj
    rw [hlen3] at hj
    rw [hdone3 j (by omega), sequentialprefixsum_getE data j hj]

/-! Facts about checkresult. -/

lemma crLoop_spec (c : Nat) : ∀ (cr d : List Int) (i : Nat),
    (crLoop cr d i c = 1 ↔ ∀ t, i ≤ t → t < i + c → getE cr t = getE d t) ∧
    (crLoop cr d i c = 0 ∨ crLoop cr d i c = 1) := by
  induction c with
  | zero =>
    intro cr d i
    refine ⟨⟨fun _ t ht1 ht2 => by omega, fun _ => rfl⟩, Or.inr rfl⟩
  | succ m ih =>
    intro cr d i
    have hred : crLoop cr d i (m+1)
        = if getE d i ≠ getE cr i then 0 else crLoop cr d (i+1) m := rfl
    rcases eq_or_ne (getE d i) (getE cr i) with he | he
    · have hred2 : crLoop cr d i (m+1) = crLoop cr d (i+1) m := by
        rw [hred, if_neg (fun hne => hne he)]
      obtain ⟨ihiff, ihcases⟩ := ih cr d (i+1)
      rw [hred2]
      refine ⟨⟨?_, ?_⟩, ihcases⟩
      · intro h1 t ht1 ht2
        rcases eq_or_ne t i with hti | hti
        · subst hti; exact he.symm
        · exact ihiff.mp h1 t (by omega) (by omega)
      · intro h
        exact ihiff.mpr (fun t ht1 ht2 => h t (by omega) (by omega))
    · have hred2 : crLoop cr d i (m+1) = 0 := by rw [hred, if_pos he]
      rw [hred2]
      refine ⟨⟨fun h => by omega, fun h => ?_⟩, Or.inl rfl⟩
      exact absurd (h i (Nat.le_refl i) (by omega)).symm he

lemma crLoop_congr (c : Nat) : ∀ (cr d cr2 d2 : List Int) (i : Nat),
    (∀ t, i ≤ t → t < i + c → getE cr t = getE cr2 t) →
    (∀ t, i ≤ t → t < i + c → getE d t = getE d2 t) →
    crLoop cr d i c = crLoop cr2 d2 i c := by
  induction c with
  | zero => intro cr d cr2 d2 i _ _; rfl
  | succ m ih =>
    intro cr d cr2 d2 i hcr hd
    show (if getE d i ≠ getE cr i then 0 else crLoop cr d (i+1) m)
      = (if getE d2 i ≠ getE cr2 i then 0 else crLoop cr2 d2 (i+1) m)
    rw [hcr i (Nat.le_refl i) (by omega), hd i (Nat.le_refl i) (by omega)]
    rcases eq_or_ne (getE d2 i) (getE cr2 i) with he | he
    · rw [if_neg (fun hne => hne he), if_neg (fun hne => hne he)]
      exact ih cr d cr2 d2 (i+1) (fun t ht1 ht2 => hcr t (by omega) (by omega))
        (fun t ht1 ht2 => hd t (by omega) (by omega))
    · rw [if_pos he, if_pos he]

/-! The near-duplicate engine variant of src/unnamed/part_001:
thread_function with thread_prefix_sum, final_element_prefix and
update_local_values.  The loop bodies are modelled separately, faithful
to that file, and proved extensionally equal to the primary variant. -/

/-- The in-place scan loop of thread_prefix_sum (src/unnamed/part_001). -/
def scanLoop2 : List Int → Nat → Nat → List Int
  | data, _, 0 => data
  | data, i, c+1 => scanLoop2 (data.set i (getE data i + getE data (i-1))) (i+1) c

/-- C function thread_prefix_sum of src/unnamed/part_001:
for (i = start_index+1; i < end_index+1; i++) data[i] += data[i-1]. -/
def thread_prefix_sum (data : List Int) (start_index end_index : Nat) : List Int :=
  scanLoop2 data (start_index + 1) (end_index - start_index)

/-- The loop of final_element_prefix (src/unnamed/part_001). -/
def fepLoop2 (cpt rem w : Nat) : List Int → Nat → Nat → List Int
  | data, _, 0 => data
  | data, i, c+1 =>
    let curr_final_index := (i+1) * cpt - 1
    let next_final_index :=
      if i = w - 2 then curr_final_index + cpt + rem else curr_final_index + cpt
    fepLoop2 cpt rem w
      (data.set next_final_index (getE data next_final_index + getE data curr_final_index))
      (i+1) c

/-- C function final_element_prefix of src/unnamed/part_001: propagates the
final element of chunk i into the final element of chunk i+1. -/
def final_element_prefix (n w : Nat) (data : List Int) : List Int :=
  fepLoop2 (n / w) (n % w) w data 0 (w - 1)

/-- The loop of update_local_values (src/unnamed/part_001). -/
def ulvLoop2 (prev_final_val : Int) : List Int → Nat → Nat → List Int
  | data, _, 0 => data
  | data, i, c+1 => ulvLoop2 prev_final_val (data.set i (getE data i + prev_final_val)) (i+1) c

/-- C function update_local_values of src/unnamed/part_001:
prev_final_val = data[start_index-1]; add it to all cells of
[start_index, end_index). -/
def update_local_values (data : List Int) (start_index end_index : Nat) : List Int :=
  ulvLoop2 (getE data (start_index - 1)) data start_index (end_index - start_index)

/-- Phase 1 of thread_function (src/unnamed/part_001) for one worker. -/
def thread_function_phase1 (n w id : Nat) (data : List Int) : List Int :=
  thread_prefix_sum data (start_index n w id) (end_index n w id)

/-- Phase 2 of thread_function (src/unnamed/part_001) for one worker. -/
def thread_function_phase2 (n w id : Nat) (data : List Int) : List Int :=
  if id = 0 then final_element_prefix n w data else data

/-- Phase 3 of thread_function (src/unnamed/part_001) for one worker. -/
def thread_function_phase3 (n w id : Nat) (data : List Int) : List Int :=
  if id ≠ 0 then update_local_values data (start_index n w id) (end_index n w id) else data

/-- The parallelprefixsum harness of src/unnamed/part_001 (textually the same
argument-assignment loop and barrier protocol, dispatching thread_function). -/
def parallelprefixsum2 (w : Nat) (data : List Int) : List Int :=
  (List.range w).foldl (fun d i => thread_function_phase3 data.length w i d)
    ((List.range w).foldl (fun d i => thread_function_phase2 data.length w i d)
      ((List.range w).foldl (fun d i => thread_function_phase1 data.length w i d) data))

lemma scanLoop2_eq (c : Nat) : ∀ (data : List Int) (i : Nat),
    scanLoop2 data i c = scanLoop data i c := by
  induction c with
  | zero => intro data i; rfl
  | succ m ih =>
    intro data i
    show scanLoop2 (data.set i (getE data i + getE data (i-1))) (i+1) m
      = scanLoop data i (m+1)
    rw [ih]
    rfl

lemma thread_prefix_sum_eq (data : List Int) (s e : Nat) :
    thread_prefix_sum data s e = threadprefixsum data s e :=
  scanLoop2_eq _ data _

lemma fepLoop2_eq (cpt rem w : Nat) (c : Nat) : ∀ (data : List Int) (i : Nat),
    fepLoop2 cpt rem w data i c = fepLoop cpt rem w data i c := by
  induction c with
  | zero => intro data i; rfl
  | succ m ih =>
    intro data i
    show fepLoop2 cpt rem w _ (i+1) m = fepLoop cpt rem w data i (m+1)
    rw [ih]
    rfl

lemma final_element_prefix_eq (n w : Nat) (data : List Int) :
    final_element_prefix n w data = finalelementprefix n w data :=
  fepLoop2_eq _ _ _ _ data 0

lemma ulvLoop2_eq (prev : Int) (c : Nat) : ∀ (data : List Int) (i : Nat),
    ulvLoop2 prev data i c = ulvLoop prev data i c := by
  induction c with
  | zero => intro data i; rfl
  | succ m ih =>
    intro data i
    show ulvLoop2 prev _ (i+1) m = ulvLoop prev data i (m+1)
    rw [ih]
    rfl

lemma update_local_values_eq (data : List Int) (s e : Nat) :
    update_local_values data s e = updatelocalvalues data s e :=
  ulvLoop2_eq _ _ data s

lemma parallelprefixsum2_eq (w : Nat) (data : List Int) :
    parallelprefixsum2 w data = parallelprefixsum w data := by
  unfold parallelprefixsum2 parallelprefixsum phase1 phase2 phase3
  have h1 : ∀ (d : List Int),
      (List.range w).foldl (fun d i => thread_function_phase1 data.length w i d) d
        = (List.range w).foldl (fun d i => threadfunction_phase1 data.length w i d) d := by
    intro d
    refine List.foldl_ext _ _ _ ?_
    intro a b _
    unfold thread_function_phase1 threadfunction_phase1
    rw [thread_prefix_sum_eq]
  have h2 : ∀ (d : List Int),
      (List.range w).foldl (fun d i => thread_function_phase2 data.length w i d) d
        = (List.range w).foldl (fun d i => threadfunction_phase2 data.length w i d) d := by
    intro d
    refine List.foldl_ext _ _ _ ?_
    intro a b _
    unfold thread_function_phase2 threadfunction_phase2
    rw [final_element_prefix_eq]
  have h3 : ∀ (d : List Int),
      (List.range w).foldl (fun d i => thread_function_phase3 data.length w i d) d
        = (List.range w).foldl (fun d i => threadfunction_phase3 data.length w i d) d := by
    intro d
    refine List.foldl_ext _ _ _ ?_
    intro a b _
    unfold thread_function_phase3 threadfunction_phase3
    rw [update_local_values_eq]
  rw [h1, h2, h3]

/-! The claims. -/

/-- C1: for every N ≥ 1, every W with 1 ≤ W ≤ N and every integer array of
length N, the parallel prefix sum (parallelprefixsum, executing the
three-phase protocol of threadfunction per worker) produces exactly the
final array of the sequential reference sequentialprefixsum on the same
input. -/
theorem claim_C1_parallel_matches_sequential (w : Nat) (data : List Int)
    (hw : 1 ≤ w) (hwn : w ≤ data.length) :
    parallelprefixsum w data = sequentialprefixsum data :=
  pps_eq_seq w data hw hwn

/-- C1 witness at W = 2 on an array of length 5. -/
theorem claim_C1_witness :
    1 ≤ 2 ∧ 2 ≤ ([1, 2, 3, 4, 5] : List Int).length ∧
      parallelprefixsum 2 [1, 2, 3, 4, 5] = sequentialprefixsum [1, 2, 3, 4, 5] :=
  ⟨by decide, by decide,
    claim_C1_parallel_matches_sequential 2 [1, 2, 3, 4, 5] (by decide) (by decide)⟩

/-- C2: for every N ≥ 1 and W with 1 ≤ W ≤ N, the chunk-bounds assignment
of parallelprefixsum produces W contiguous pairwise disjoint chunks
covering the whole index range, all of size N/W except the last, which has
N/W + N%W elements. -/
theorem claim_C2_partition (n w : Nat) (hw : 1 ≤ w) (hwn : w ≤ n) :
    start_index n w 0 = 0 ∧
    end_index n w (w-1) = n - 1 ∧
    (∀ i, i + 1 < w → end_index n w i + 1 = start_index n w (i+1)) ∧
    (∀ i, i < w → start_index n w i ≤ end_index n w i) ∧
    (∀ i j, i < j → j < w → end_index n w i < start_index n w j) ∧
    (∀ j, j < n → ∃ i, i < w ∧ start_index n w i ≤ j ∧ j ≤ end_index n w i) ∧
    (∀ i, i + 1 < w → end_index n w i + 1 - start_index n w i = n / w) ∧
    end_index n w (w-1) + 1 - start_index n w (w-1) = n / w + n % w :=
  ⟨start_index_zero n w,
   end_index_last n w hw hwn,
   fun i hi => end_succ_eq_start n w i hi hw hwn,
   fun i hi => start_le_end n w i hi hw hwn,
   fun i j hij hj => end_lt_start n w i j hij hj hw hwn,
   fun j hj => chunk_cover n w j hw hwn hj,
   fun i hi => chunk_size_of_lt n w i hi hw hwn,
   chunk_size_last n w hw hwn⟩

/-- C2 witness at N = 5, W = 2. -/
theorem claim_C2_witness :
    1 ≤ 2 ∧ 2 ≤ 5 ∧
      (start_index 5 2 0 = 0 ∧
       end_index 5 2 (2-1) = 5 - 1 ∧
       (∀ i, i + 1 < 2 → end_index 5 2 i + 1 = start_index 5 2 (i+1)) ∧
       (∀ i, i < 2 → start_index 5 2 i ≤ end_index 5 2 i) ∧
       (∀ i j, i < j → j < 2 → end_index 5 2 i < start_index 5 2 j) ∧
       (∀ j, j < 5 → ∃ i, i < 2 ∧ start_index 5 2 i ≤ j ∧ j ≤ end_index 5 2 i) ∧
       (∀ i, i + 1 < 2 → end_index 5 2 i + 1 - start_index 5 2 i = 5 / 2) ∧
       end_index 5 2 (2-1) + 1 - start_index 5 2 (2-1) = 5 / 2 + 5 % 2) :=
  ⟨by decide, by decide, claim_C2_partition 5 2 (by decide) (by decide)⟩

/-- C3 counterexample: the check in main does not reject the invalid
configuration N = 1, W = 2 (W > N), so the program does not fail with a
configuration error there, contrary to the claim. -/
theorem claim_C3_counterexample :
    1 < 2 ∧ config_rejected 1 2 = false := by decide

/-- C3 amended: the program exits with failure before any allocation or
thread launch exactly when N > 10,000,000 or W > 32; the conditions W > N
and W < 1 are not checked. -/
theorem claim_C3_amended_config (nitems nthreads : Nat) :
    config_rejected nitems nthreads = true ↔ (10000000 < nitems ∨ 32 < nthreads) := by
  unfold config_rejected
  simp

/-- C3 witness for the amended claim at an accepted and a rejected
configuration. -/
theorem claim_C3_amended_witness :
    (config_rejected 22 3 = true ↔ (10000000 < 22 ∨ 32 < 3)) ∧
      (config_rejected 22 33 = true ↔ (10000000 < 22 ∨ 32 < 33)) :=
  ⟨claim_C3_amended_config 22 3, claim_C3_amended_config 22 33⟩

/-- C4: after Phase 2 (finalelementprefix run by the coordinator on the
Phase 1 result, where every chunk holds its local prefix sums), the final
element of every chunk k holds the global cumulative sum of the original
input up through the end of chunk k. -/
theorem claim_C4_phase2_final_elements (w : Nat) (data : List Int)
    (hw : 1 ≤ w) (hwn : w ≤ data.length) :
    ∀ k, k < w →
      getE ( finalelementprefix data.length w (phase1 data.length w data))
        (end_index data.length w k)
      = segSum data 0 (end_index data.length w k + 1) :=
  phase12_glob data.length w data hw hwn rfl

/-- C4 witness at W = 2 on the worked example array. -/
theorem claim_C4_witness :
    1 ≤ 2 ∧ 2 ≤ ([1, 2, 3, 4, 5, 6, 7, 8] : List Int).length ∧
      (∀ k, k < 2 →
        getE ( finalelementprefix ([1, 2, 3, 4, 5, 6, 7, 8] : List Int).length 2
            (phase1 ([1, 2, 3, 4, 5, 6, 7, 8] : List Int).length 2 [1, 2, 3, 4, 5, 6, 7, 8]))
          (end_index ([1, 2, 3, 4, 5, 6, 7, 8] : List Int).length 2 k)
        = segSum [1, 2, 3, 4, 5, 6, 7, 8] 0
            (end_index ([1, 2, 3, 4, 5, 6, 7, 8] : List Int).length 2 k + 1)) :=
  ⟨by decide, by decide,
    claim_C4_phase2_final_elements 2 [1, 2, 3, 4, 5, 6, 7, 8] (by decide) (by decide)⟩

/-- C5: in Phase 3, worker 0 performs no update; every worker id ≠ 0 adds
the final element of chunk id-1 (the cell just before its own chunk) to
every element of its chunk except the last, and leaves its own final chunk
element and every cell outside its chunk unchanged. -/
theorem claim_C5_phase3_effect (n w : Nat) (d : List Int) (hw : 1 ≤ w) (hwn : w ≤ n)
    (hlen : d.length = n) :
    threadfunction_phase3 n w 0 d = d ∧
    (∀ id, 1 ≤ id → id < w →
      start_index n w id - 1 = end_index n w (id - 1) ∧
      (∀ j, start_index n w id ≤ j → j < end_index n w id →
        getE (threadfunction_phase3 n w id d) j
          = getE d j + getE d (end_index n w (id - 1))) ∧
      (∀ j, j < start_index n w id ∨ end_index n w id ≤ j →
        getE (threadfunction_phase3 n w id d) j = getE d j)) := by
  constructor
  · unfold threadfunction_phase3
    rw [if_neg (by omega)]
  · intro id hid1 hid2
    have hprev : end_index n w (id - 1) + 1 = start_index n w id := by
      have h := end_succ_eq_start n w (id - 1) (by omega) hw hwn
      have h2 : id - 1 + 1 = id := by omega
      rw [h2] at h
      exact h
    have hem : end_index n w id < n := end_index_lt n w id hid2 hw hwn
    have hunf : threadfunction_phase3 n w id d
        = updatelocalvalues d (start_index n w id) (end_index n w id) := by
      unfold threadfunction_phase3
      rw [if_pos (by omega)]
    refine ⟨by omega, ?_, ?_⟩
    · intro j hj1 hj2
      rw [hunf, updatelocalvalues_spec d _ _ (by omega) j hj1 hj2]
      have h3 : start_index n w id - 1 = end_index n w (id - 1) := by omega
      rw [h3]
    · intro j hj
      rw [hunf, updatelocalvalues_frame d _ _ j hj]

/-- C5 witness at N = 2, W = 2, one-element chunks. -/
theorem claim_C5_witness :
    1 ≤ 2 ∧ 2 ≤ 2 ∧ ([5, 7] : List Int).length = 2 ∧
      (threadfunction_phase3 2 2 0 [5, 7] = [5, 7] ∧
       (∀ id, 1 ≤ id → id < 2 →
         start_index 2 2 id - 1 = end_index 2 2 (id - 1) ∧
         (∀ j, start_index 2 2 id ≤ j → j < end_index 2 2 id →
           getE (threadfunction_phase3 2 2 id [5, 7]) j
             = getE [5, 7] j + getE [5, 7] (end_index 2 2 (id - 1))) ∧
         (∀ j, j < start_index 2 2 id ∨ end_index 2 2 id ≤ j →
           getE (threadfunction_phase3 2 2 id [5, 7]) j = getE [5, 7] j))) :=
  ⟨by decide, by decide, by decide,
    claim_C5_phase3_effect 2 2 [5, 7] (by decide) (by decide) (by decide)⟩

/-- C6: with W = 1 the computation degenerates to the sequential one: the
single chunk covers the whole range, Phase 2 performs no boundary
additions, Phase 3 performs no update, and the result equals
sequentialprefixsum on the same input. -/
theorem claim_C6_single_worker (data : List Int) (hn : 1 ≤ data.length) :
    start_index data.length 1 0 = 0 ∧
    end_index data.length 1 0 = data.length - 1 ∧
    (∀ d : List Int, finalelementprefix data.length 1 d = d) ∧
    (∀ d : List Int, phase3 data.length 1 d = d) ∧
    parallelprefixsum 1 data = sequentialprefixsum data := by
  refine ⟨start_index_zero _ 1, ?_, fun d => rfl, ?_, ?_⟩
  · unfold end_index
    rw [if_pos rfl]
    simp [Nat.div_one, Nat.mod_one]
  · intro d
    unfold phase3
    have hr : List.range 1 = [0] := rfl
    rw [hr]
    show threadfunction_phase3 data.length 1 0 d = d
    unfold threadfunction_phase3
    rw [if_neg (by omega)]
  · exact pps_eq_seq 1 data (Nat.le_refl 1) hn

/-- C6 witness on an array of length 2. -/
theorem claim_C6_witness :
    1 ≤ ([4, 9] : List Int).length ∧
      (start_index ([4, 9] : List Int).length 1 0 = 0 ∧
       end_index ([4, 9] : List Int).length 1 0 = ([4, 9] : List Int).length - 1 ∧
       (∀ d : List Int, finalelementprefix ([4, 9] : List Int).length 1 d = d) ∧
       (∀ d : List Int, phase3 ([4, 9] : List Int).length 1 d = d) ∧
       parallelprefixsum 1 [4, 9] = sequentialprefixsum [4, 9]) :=
  ⟨by decide, claim_C6_single_worker [4, 9] (by decide)⟩

/-- C7: the worked example: input [1,2,3,4,5,6,7,8] with W = 2 yields
chunks with inclusive bounds [0,3] and [4,7] (the half-open chunks [0,4)
and [4,8)); Phase 1 yields [1,3,6,10,5,11,18,26]; Phase 2 adds 10 into
index 7 giving 36; Phase 3 adds 10 to indices 4..6; the final array is
[1,3,6,10,15,21,28,36], equal to the sequential prefix sum. -/
theorem claim_C7_worked_example :
    start_index 8 2 0 = 0 ∧ end_index 8 2 0 = 3 ∧
    start_index 8 2 1 = 4 ∧ end_index 8 2 1 = 7 ∧
    phase1 8 2 [1, 2, 3, 4, 5, 6, 7, 8] = [1, 3, 6, 10, 5, 11, 18, 26] ∧
    finalelementprefix 8 2 [1, 3, 6, 10, 5, 11, 18, 26]
      = [1, 3, 6, 10, 5, 11, 18, 36] ∧
    updatelocalvalues [1, 3, 6, 10, 5, 11, 18, 36] 4 7
      = [1, 3, 6, 10, 15, 21, 28, 36] ∧
    parallelprefixsum 2 [1, 2, 3, 4, 5, 6, 7, 8] = [1, 3, 6, 10, 15, 21, 28, 36] ∧
    sequentialprefixsum [1, 2, 3, 4, 5, 6, 7, 8] = [1, 3, 6, 10, 15, 21, 28, 36] := by
  decide

/-- C8 counterexample: the computation is not idempotent: applying
parallelprefixsum (with the valid configuration W = 1) to its own output
on [1, 1] gives [1, 3], not the first result [1, 2]. -/
theorem claim_C8_counterexample :
    1 ≤ ([1, 1] : List Int).length ∧
      parallelprefixsum 1 (parallelprefixsum 1 [1, 1]) ≠ parallelprefixsum 1 [1, 1] := by
  decide

/-- C8 amended: the computation is a pure, deterministic transformation of
the array's initial state: re-invoking it from scratch on the same initial
state always produces the same result, even with a different valid worker
count; but applying it to its own output generally changes the array. -/
theorem claim_C8_deterministic (w1 w2 : Nat) (data : List Int)
    (h1 : 1 ≤ w1) (h2 : w1 ≤ data.length) (h3 : 1 ≤ w2) (h4 : w2 ≤ data.length) :
    parallelprefixsum w1 data = parallelprefixsum w2 data := by
  rw [pps_eq_seq w1 data h1 h2, pps_eq_seq w2 data h3 h4]

/-- C8 witness: worker counts 1 and 2 on an array of length 3. -/
theorem claim_C8_witness :
    1 ≤ 1 ∧ 1 ≤ ([2, 4, 6] : List Int).length ∧ 1 ≤ 2 ∧
      2 ≤ ([2, 4, 6] : List Int).length ∧
      parallelprefixsum 1 [2, 4, 6] = parallelprefixsum 2 [2, 4, 6] :=
  ⟨by decide, by decide, by decide, by decide,
    claim_C8_deterministic 1 2 [2, 4, 6] (by decide) (by decide) (by decide) (by decide)⟩

/-- C9: checkresult returns 1 exactly when the two arrays agree on all
indices below n (and 0 otherwise), returns 1 for n = 0, and depends only
on the cells below index n of either array. -/
theorem claim_C9_checkresult (correctresult data : List Int) (n : Nat) :
    (checkresult correctresult data n = 1 ↔
      ∀ i, i < n → getE correctresult i = getE data i) ∧
    (checkresult correctresult data n = 0 ∨ checkresult correctresult data n = 1) ∧
    checkresult correctresult data 0 = 1 ∧
    (∀ c2 d2 : List Int, (∀ i, i < n → getE correctresult i = getE c2 i) →
      (∀ i, i < n → getE data i = getE d2 i) →
      checkresult correctresult data n = checkresult c2 d2 n) := by
  obtain ⟨hiff, hcases⟩ := crLoop_spec n correctresult data 0
  refine ⟨⟨?_, ?_⟩, hcases, rfl, ?_⟩
  · intro h i hi
    exact hiff.mp h i (by omega) (by omega)
  · intro h
    exact hiff.mpr (fun t _ ht2 => h t (by omega))
  · intro c2 d2 hc hd
    exact crLoop_congr n _ _ _ _ 0 (fun t _ ht2 => hc t (by omega))
      (fun t _ ht2 => hd t (by omega))

/-- C9 witness on concrete arrays of length 2. -/
theorem claim_C9_witness :
    (checkresult [1, 2] [1, 2] 2 = 1 ↔
      ∀ i, i < 2 → getE [1, 2] i = getE [1, 2] i) ∧
    (checkresult [1, 2] [1, 2] 2 = 0 ∨ checkresult [1, 2] [1, 2] 2 = 1) ∧
    checkresult [1, 2] [1, 2] 0 = 1 ∧
    (∀ c2 d2 : List Int, (∀ i, i < 2 → getE [1, 2] i = getE c2 i) →
      (∀ i, i < 2 → getE [1, 2] i = getE d2 i) →
      checkresult [1, 2] [1, 2] 2 = checkresult c2 d2 2) :=
  claim_C9_checkresult [1, 2] [1, 2] 2

/-- C10: the engine of src/src/parallel-prefix-sum.c (threadprefixsum,
finalelementprefix, updatelocalvalues, threadfunction) and the
near-duplicate of src/unnamed/part_001 (thread_prefix_sum,
final_element_prefix, update_local_values, thread_function) compute
extensionally equal functions, phase by phase and end to end. -/
theorem claim_C10_variants_equal :
    (∀ (data : List Int) (s e : Nat),
      thread_prefix_sum data s e = threadprefixsum data s e) ∧
    (∀ (n w : Nat) (data : List Int),
      final_element_prefix n w data = finalelementprefix n w data) ∧
    (∀ (data : List Int) (s e : Nat),
      update_local_values data s e = updatelocalvalues data s e) ∧
    (∀ (n w id : Nat) (data : List Int),
      thread_function_phase1 n w id data = threadfunction_phase1 n w id data) ∧
    (∀ (n w id : Nat) (data : List Int),
      thread_function_phase2 n w id data = threadfunction_phase2 n w id data) ∧
    (∀ (n w id : Nat) (data : List Int),
      thread_function_phase3 n w id data = threadfunction_phase3 n w id data) ∧
    (∀ (w : Nat) (data : List Int),
      parallelprefixsum2 w data = parallelprefixsum w data) := by
  refine ⟨thread_prefix_sum_eq, final_element_prefix_eq, update_local_values_eq,
    ?_, ?_, ?_, parallelprefixsum2_eq⟩
  · intro n w id data
    unfold thread_function_phase1 threadfunction_phase1
    rw [thread_prefix_sum_eq]
  · intro n w id data
    unfold thread_function_phase2 threadfunction_phase2
    rw [final_element_prefix_eq]
  · intro n w id data
    unfold thread_function_phase3 threadfunction_phase3
    rw [update_local_values_eq]
